import Mathlib

/-!
# Verification of the spatial assignment engine and calculator pipelines

Shallow embedding of the core algorithms of the impact-assessment worker:

* `worker/spatial/utils.py` — precision snapping (`apply_precision`),
* `worker/spatial/operations.py` — geometry repair (`make_valid_geometries`),
* `worker/spatial/assignments.py` — majority-overlap assignment, sequential
  and local-parallel, and spatial partitioning (`_partition_by_bounds`),
* `worker/spatial/overlay.py` — precision-snapped difference
  (`spatial_difference_with_precision`) and its partitioning helper,
* `worker/calculators/land_use.py` — land-use nutrient uplift,
* `worker/calculators/suds.py` — SuDS mitigation,
* `worker/assessments/gcn.py` — zone-priority resolution (`highest_zone`),
* `worker/assessments/nutrient.py` — out-of-scope filtering.

Geometries are modelled as finite sets of rational points ("cells"): the
intersection of two geometries is the set of shared cells, and the area of a
geometry is the number of distinct cells.  This preserves exactly the
relational structure the algorithms depend on (which overlay feature has the
largest overlap, whether an overlap is empty, additivity of area over rows)
while staying exact and executable.  GeoDataFrames are lists of typed rows;
pandas left-merges, groupbys and `idxmax` are modelled by explicit list
operations with the same semantics (first occurrence of the maximum, one
output row per match).  Floating-point numbers are modelled by `ℚ`, and
`np.round(x, 2)` by round-half-to-even on `100 * x`.
-/

/-! ## Geometry substrate -/

/-- A geometry: a finite collection of rational grid cells (points).  The area
is the number of distinct cells, the intersection is the set of shared
cells. -/
abbrev Geom : Type := List (ℚ × ℚ)

/-- Cells common to both geometries (the model of geometric intersection). -/
def interCells (g1 g2 : Geom) : Geom :=
  g1.filter (fun p => decide (p ∈ g2))

/-- Area of a geometry: the number of distinct cells. -/
def cellArea (g : Geom) : ℕ :=
  g.dedup.length

/-- Area of the intersection of two geometries (the `overlap_area` column of
`assignments.py` line 68). -/
def interArea (g1 g2 : Geom) : ℕ :=
  cellArea (interCells g1 g2)

/-- Whether two geometries intersect (produce a row in
`gpd.overlay(..., how="intersection")`). -/
def intersectsB (g1 g2 : Geom) : Bool :=
  decide (interCells g1 g2 ≠ [])

/-- Minimum of a list of rationals (the `min` side of `total_bounds`);
`0` for the empty list, which the call sites never hit. -/
def listMin : List ℚ → ℚ
  | [] => 0
  | [x] => x
  | x :: y :: xs => min x (listMin (y :: xs))

/-- Maximum of a list of rationals (the `max` side of `total_bounds`). -/
def listMax : List ℚ → ℚ
  | [] => 0
  | [x] => x
  | x :: y :: xs => max x (listMax (y :: xs))

/-- x-coordinate of the centroid of a geometry (mean of the cell
x-coordinates, the model of `geometry.centroid.x`). -/
def centroidX (g : Geom) : ℚ :=
  (g.map Prod.fst).sum / g.length

/-- y-coordinate of the centroid of a geometry. -/
def centroidY (g : Geom) : ℚ :=
  (g.map Prod.snd).sum / g.length

/-- Round-half-to-even on integers-scaled rationals: the rounding mode of
`np.round`. -/
def roundHalfEven (x : ℚ) : ℤ :=
  let f := ⌊x⌋
  let r := x - f
  if r < 1 / 2 then f
  else if 1 / 2 < r then f + 1
  else if f % 2 = 0 then f else f + 1

/-- `np.round(x, 2)`: round to two decimal places, half to even. -/
def round2 (x : ℚ) : ℚ :=
  (roundHalfEven (x * 100) : ℚ) / 100

/-! ## Calculators (`worker/calculators/land_use.py`, `worker/calculators/suds.py`) -/

/-- Configuration for SuDS mitigation (`SuDsConfig` in `worker/config.py`):
dwelling threshold, flow capture percentage, removal rate percentage. -/
structure SuDsConfig where
  threshold_dwellings : ℤ
  flow_capture_percent : ℚ
  removal_rate_percent : ℚ
deriving DecidableEq

/-- `SuDsConfig.total_reduction_factor` (`worker/config.py`):
`(flow_capture_percent / 100) * (removal_rate_percent / 100)`. -/
def SuDsConfig.total_reduction_factor (c : SuDsConfig) : ℚ :=
  (c.flow_capture_percent / 100) * (c.removal_rate_percent / 100)

/-- `calculate_land_use_uplift` (`worker/calculators/land_use.py` lines 9-50):
uplift = (residential − current) coefficient × area, per nutrient, rounded to
2 decimal places. -/
def calculate_land_use_uplift (area_hectares current_nitrogen_coeff
    residential_nitrogen_coeff current_phosphorus_coeff
    residential_phosphorus_coeff : ℚ) : ℚ × ℚ :=
  let nitrogen_uplift := (residential_nitrogen_coeff - current_nitrogen_coeff) * area_hectares
  let phosphorus_uplift :=
    (residential_phosphorus_coeff - current_phosphorus_coeff) * area_hectares
  (round2 nitrogen_uplift, round2 phosphorus_uplift)

/-- `apply_suds_mitigation` (`worker/calculators/suds.py` lines 11-60): the
reduction factor is applied to the absolute value of each uplift; the
`dwelling_count` argument is accepted but never used (the threshold in the
configuration is not enforced, matching the legacy script). -/
def apply_suds_mitigation (nitrogen_uplift phosphorus_uplift : ℚ)
    (_dwelling_count : ℤ) (suds_config : SuDsConfig) : ℚ × ℚ :=
  let total_reduction := suds_config.total_reduction_factor
  let nitrogen_post_suds := nitrogen_uplift - |nitrogen_uplift| * total_reduction
  let phosphorus_post_suds := phosphorus_uplift - |phosphorus_uplift| * total_reduction
  (round2 nitrogen_post_suds, round2 phosphorus_post_suds)

/-! ## Scope filtering (`worker/assessments/nutrient.py` lines 586-612) -/

/-- A development row as seen by `_filter_out_of_scope`: an opaque attribute
payload plus the two columns the filter inspects.  `none` models a pandas
missing value (`NaN`). -/
structure ScopeRow (σ : Type) where
  attrs : σ
  area_in_nn_catchment_ha : Option ℚ
  wwtw_name : Option String
deriving DecidableEq

/-- The sentinel facility fallback name used by the nutrient pipeline. -/
def packageTreatmentPlantDefault : String := "Package Treatment Plant default"

/-- `NutrientAssessment._filter_out_of_scope` (`worker/assessments/nutrient.py`
lines 586-612): first drop rows where both the catchment area and the facility
name are missing, then drop rows where the catchment area is missing and the
facility name equals the sentinel fallback. -/
def filter_out_of_scope {σ : Type} (rlb_gdf : List (ScopeRow σ)) : List (ScopeRow σ) :=
  let step1 := rlb_gdf.filter
    (fun r => !(r.area_in_nn_catchment_ha.isNone && r.wwtw_name.isNone))
  step1.filter
    (fun r => !(r.area_in_nn_catchment_ha.isNone &&
      decide (r.wwtw_name = some packageTreatmentPlantDefault)))

/-! ## Zone-priority resolution (`worker/assessments/gcn.py` lines 294-306)

Python strings are modelled as `List Char`; `str.split(":")` is modelled by
`pySplitColon`, which like Python returns `[""]` on the empty string, and the
`":".join(...)` encoding of a zone set by `joinColon`. -/

/-- Python's `s.split(":")` on a character list: splits at every colon and
yields `[[]]` for the empty string (Python: `"".split(":") == ['']`). -/
def pySplitColon : List Char → List (List Char)
  | [] => [[]]
  | c :: rest =>
    match pySplitColon rest with
    | [] => [[c]]
    | g :: gs => if c = ':' then [] :: g :: gs else (c :: g) :: gs

/-- Python's `":".join(zs)` (the `CONCATENATE_RZ` encoding of a zone set,
`worker/assessments/gcn.py` line 289). -/
def joinColon : List (List Char) → List Char
  | [] => []
  | [z] => z
  | z :: y :: zs => z ++ ':' :: joinColon (y :: zs)

/-- `highest_zone` (`worker/assessments/gcn.py` lines 296-305): split the
concatenated zone string on `":"` and pick `Red`, else `Amber`, else `Green`,
else the first entry; the `"Unknown"` arm is the Python
`zone_list[0] if zone_list else "Unknown"` fallback. -/
def highest_zone (zones : List Char) : List Char :=
  let zone_list := pySplitColon zones
  if "Red".toList ∈ zone_list then "Red".toList
  else if "Amber".toList ∈ zone_list then "Amber".toList
  else if "Green".toList ∈ zone_list then "Green".toList
  else
    match zone_list with
    | z :: _ => z
    | [] => "Unknown".toList

/-! ## Precision snapping and repair
(`worker/spatial/utils.py` lines 36-67, `worker/spatial/operations.py`
lines 90-109) -/

/-- Snap one coordinate pair to multiples of `grid` (the model of shapely's
`set_precision`); `grid ≤ 0` disables snapping, as in shapely. -/
def snapPt (grid : ℚ) (p : ℚ × ℚ) : ℚ × ℚ :=
  if grid ≤ 0 then p else (grid * round (p.1 / grid), grid * round (p.2 / grid))

/-- Snap every cell of a geometry to the precision grid. -/
def snapGeom (grid : ℚ) (g : Geom) : Geom :=
  g.map (snapPt grid)

/-- A row of a GeoDataFrame with a nullable geometry column and an opaque
payload of non-geometry columns. -/
structure GeoRow (σ : Type) where
  attrs : σ
  geom : Option Geom
deriving DecidableEq

/-- `apply_precision` (`worker/spatial/utils.py` lines 36-67):
`gdf.geometry.apply(lambda geom: set_precision(geom, grid_size) if geom else geom)`
— null (and empty, which Python treats as falsy) geometries pass through
unchanged, all other geometries are snapped; non-geometry columns are
untouched. -/
def apply_precision {σ : Type} (grid_size : ℚ) (gdf : List (GeoRow σ)) :
    List (GeoRow σ) :=
  gdf.map (fun r =>
    { r with geom := match r.geom with
        | none => none
        | some g => some (if g.isEmpty then g else snapGeom grid_size g) })

/-- `make_valid_geometries` (`worker/spatial/operations.py` lines 90-109):
`gdf.geometry.apply(lambda geom: make_valid(geom) if geom else geom)` — the
external repair primitive `make_valid` is an arbitrary geometry
transformation, taken here as a parameter. -/
def make_valid_geometries {σ : Type} (make_valid : Geom → Geom)
    (gdf : List (GeoRow σ)) : List (GeoRow σ) :=
  gdf.map (fun r =>
    { r with geom := match r.geom with
        | none => none
        | some g => some (if g.isEmpty then g else make_valid g) })

/-! ## Spatial partitioning
(`_partition_by_bounds`, duplicated identically in
`worker/spatial/assignments.py` lines 92-133 and `worker/spatial/overlay.py`
lines 139-176; embedded once, generically in the row type, with the two
symmetric x/y loops factored through `partition1D`). -/

/-- Membership of a centroid coordinate `c` in chunk `i` of `n`, with
`step = (hi - lo) / n`: chunk `i < n - 1` is the half-open slice
`[lo + i*step, lo + (i+1)*step)`, the last chunk is the closed slice
`[lo + (n-1)*step, hi]` (`assignments.py` lines 110-131). -/
def inBucket (lo hi : ℚ) (n i : ℕ) (c : ℚ) : Bool :=
  if i < n - 1 then
    decide (lo + i * ((hi - lo) / n) ≤ c) && decide (c < lo + (i + 1) * ((hi - lo) / n))
  else
    decide (lo + i * ((hi - lo) / n) ≤ c) && decide (c ≤ hi)

/-- One axis of `_partition_by_bounds`: slice `[lo, hi]` into `n` strips and
collect, per strip in order, the rows whose centroid coordinate falls in it,
keeping only the non-empty chunks (the `if len(chunk) > 0` guard). -/
def partition1D {β : Type} (coord : β → ℚ) (lo hi : ℚ) (gdf : List β) (n : ℕ) :
    List (List β) :=
  ((List.range n).map (fun i => gdf.filter (fun r => inBucket lo hi n i (coord r)))).filter
    (fun c => !c.isEmpty)

/-- x-coordinates of every vertex of every geometry of the frame
(the pool `total_bounds` draws its x extremes from). -/
def ptsX {β : Type} (geomOf : β → Geom) (gdf : List β) : List ℚ :=
  (gdf.flatMap geomOf).map Prod.fst

/-- y-coordinates of every vertex of every geometry of the frame. -/
def ptsY {β : Type} (geomOf : β → Geom) (gdf : List β) : List ℚ :=
  (gdf.flatMap geomOf).map Prod.snd

/-- `_partition_by_bounds(gdf, n_chunks)`: `[gdf]` for an empty frame or
`n_chunks ≤ 1`; otherwise split along the longer axis of the total bounds
(`x_range >= y_range` picks x) by centroid position; if every chunk came out
empty the code's trailing `chunks if chunks else [gdf]` returns `[gdf]`
(written out once per branch here). -/
def _partition_by_bounds {β : Type} (geomOf : β → Geom) (gdf : List β) (n_chunks : ℕ) :
    List (List β) :=
  if gdf.length = 0 ∨ n_chunks ≤ 1 then [gdf]
  else if listMax (ptsY geomOf gdf) - listMin (ptsY geomOf gdf)
      ≤ listMax (ptsX geomOf gdf) - listMin (ptsX geomOf gdf) then
    if (partition1D (fun r => centroidX (geomOf r)) (listMin (ptsX geomOf gdf))
        (listMax (ptsX geomOf gdf)) gdf n_chunks).isEmpty then [gdf]
    else
      partition1D (fun r => centroidX (geomOf r)) (listMin (ptsX geomOf gdf))
        (listMax (ptsX geomOf gdf)) gdf n_chunks
  else
    if (partition1D (fun r => centroidY (geomOf r)) (listMin (ptsY geomOf gdf))
        (listMax (ptsY geomOf gdf)) gdf n_chunks).isEmpty then [gdf]
    else
      partition1D (fun r => centroidY (geomOf r)) (listMin (ptsY geomOf gdf))
        (listMax (ptsY geomOf gdf)) gdf n_chunks

/-! ## Majority-overlap assignment (`worker/spatial/assignments.py`) -/

/-- An input feature row: an identifier (the `input_id_col` column) and a
geometry. -/
structure InRow (ι : Type) where
  id : ι
  geom : Geom
deriving DecidableEq

/-- An overlay feature row: an attribute (the `overlay_attr_col` column) and a
geometry. -/
structure OvRow (α : Type) where
  attr : α
  geom : Geom
deriving DecidableEq

/-- Pandas `left.merge(tbl, on=key, how="left")`: each left row is paired with
every matching table row (in table order), or with a null when no table row
matches. -/
def mergeLeft {β γ ι : Type} [DecidableEq ι] (left : List β) (key : β → ι)
    (tbl : List (ι × γ)) : List (β × Option γ) :=
  left.flatMap (fun b =>
    match tbl.filter (fun t => decide (t.1 = key b)) with
    | [] => [(b, none)]
    | m :: ms => (m :: ms).map (fun t => (b, some t.2)))

/-- Pandas `Series.idxmax` over a group laid out in frame order: the first
element attaining the maximal score. -/
def firstMax {α : Type} : List (α × ℕ) → Option (α × ℕ)
  | [] => none
  | x :: xs =>
    match firstMax xs with
    | none => some x
    | some y => if x.2 < y.2 then some y else some x

/-- The `(attribute, overlap_area)` pairs an input row produces in the
intersection overlay: one per overlay feature it intersects, in overlay
order. -/
def rowPairs {ι α : Type} (overlay_gdf : List (OvRow α)) (r : InRow ι) :
    List (α × ℕ) :=
  (overlay_gdf.filter (fun o => intersectsB r.geom o.geom)).map
    (fun o => (o.attr, interArea r.geom o.geom))

/-- `gpd.overlay(input_gdf, overlay_gdf, how="intersection")` plus the
`overlap_area` column (`assignments.py` lines 67-68): a row per intersecting
(input, overlay) pair, input-major, carrying the input id, the overlay
attribute and the overlap area. -/
def overlayIntersections {ι α : Type} (input_gdf : List (InRow ι))
    (overlay_gdf : List (OvRow α)) : List (ι × α × ℕ) :=
  input_gdf.flatMap (fun r => (rowPairs overlay_gdf r).map (fun p => (r.id, p)))

/-- `intersections.loc[intersections.groupby(input_id_col)["overlap_area"].idxmax()]`
(`assignments.py` lines 71-74): for each distinct input id, the overlay
attribute of the first row attaining the group's maximal overlap area. -/
def groupFirstMax {ι α : Type} [DecidableEq ι] (inters : List (ι × α × ℕ)) :
    List (ι × α) :=
  ((inters.map (fun t => t.1)).dedup).filterMap (fun i =>
    (firstMax ((inters.filter (fun t => decide (t.1 = i))).map (fun t => t.2))).map
      (fun p => (i, p.1)))

/-- `_majority_overlap_sequential` (`assignments.py` lines 24-88): intersect,
take the majority attribute per input id, re-attach every input id
(`all_inputs.merge(majority, how="left")`), fill missing values with the
default (`fillna`, a no-op when no default is configured), and merge the
assignment back onto the input frame. -/
def _majority_overlap_sequential {ι α : Type} [DecidableEq ι]
    (input_gdf : List (InRow ι)) (overlay_gdf : List (OvRow α))
    (default_value : Option α) : List (InRow ι × Option α) :=
  let intersections := overlayIntersections input_gdf overlay_gdf
  let majority := groupFirstMax intersections
  let all_inputs := input_gdf.map (fun r => r.id)
  let assignments := (mergeLeft all_inputs id majority).map
    (fun p => (p.1, p.2.orElse (fun _ => default_value)))
  (mergeLeft input_gdf (fun r => r.id) assignments).map (fun p => (p.1, p.2.join))

/-- The spawn-denial errors caught by the parallel paths
(`except (NotImplementedError, PermissionError, OSError)`,
`assignments.py` line 204 and `overlay.py` line 113). -/
inductive SpawnErr where
  | notImplementedError
  | permissionError
  | osError
deriving DecidableEq

/-- `majority_overlap` (`assignments.py` lines 150-220).  The process pool is
modelled by `spawn`: `.ok ()` when the runtime allows worker processes (each
chunk is then processed by `_process_overlap_chunk`, i.e. the sequential
assignment), `.error e` when task creation raises a spawn-denial error, in
which case the whole input is re-processed sequentially. -/
def majority_overlap {ι α : Type} [DecidableEq ι] (spawn : Except SpawnErr Unit)
    (input_gdf : List (InRow ι)) (overlay_gdf : List (OvRow α))
    (default_value : Option α) (parallel : Bool) (max_workers : ℕ) :
    List (InRow ι × Option α) :=
  if parallel = false ∨ input_gdf.length < 100 then
    _majority_overlap_sequential input_gdf overlay_gdf default_value
  else
    let chunks := _partition_by_bounds (fun r => r.geom) input_gdf max_workers
    if chunks.length ≤ 1 then
      _majority_overlap_sequential input_gdf overlay_gdf default_value
    else
      match spawn with
      | .error _ => _majority_overlap_sequential input_gdf overlay_gdf default_value
      | .ok _ =>
        let results := chunks.map
          (fun c => _majority_overlap_sequential c overlay_gdf default_value)
        let combined := results.flatten
        (mergeLeft input_gdf (fun r => r.id)
          (combined.map (fun p => (p.1.id, p.2)))).map (fun p => (p.1, p.2.join))

/-! ## Precision-snapped spatial difference (`worker/spatial/overlay.py`) -/

/-- A left-frame row for the difference overlay: opaque attribute payload and
a (non-null, as at the overlay call sites) geometry. -/
structure DRow (σ : Type) where
  attrs : σ
  geom : Geom
deriving DecidableEq

/-- `apply_precision` specialised to frames whose geometry column has no
nulls, as `overlay.py` uses it (for an empty geometry the snap maps nothing,
matching the `if geom` pass-through). -/
def applyPrecisionD {σ : Type} (grid_size : ℚ) (gdf : List (DRow σ)) :
    List (DRow σ) :=
  gdf.map (fun r => { r with geom := snapGeom grid_size r.geom })

/-- `gpd.overlay(left, right, how="difference")`: each left geometry minus
every cell covered by some right geometry; rows whose difference is empty are
dropped. -/
def diffOverlay {σ τ : Type} (left : List (DRow σ)) (right : List (DRow τ)) :
    List (DRow σ) :=
  left.filterMap (fun l =>
    let g := l.geom.filter (fun p => !(right.any (fun r => decide (p ∈ r.geom))))
    if g.isEmpty then none else some { l with geom := g })

/-- `spatial_difference_with_precision` (`overlay.py` lines 65-128): snap both
sides, difference (sequentially, or chunked over a spatial partition of the
left side when parallel and large enough), snap the result.  As in
`majority_overlap`, `spawn` models the process pool; a spawn-denial error
falls back to the sequential overlay. -/
def spatial_difference_with_precision {σ τ : Type} (spawn : Except SpawnErr Unit)
    (left : List (DRow σ)) (right : List (DRow τ)) (grid_size : ℚ)
    (parallel : Bool) (max_workers : ℕ) : List (DRow σ) :=
  let left_precise := applyPrecisionD grid_size left
  let right_precise := applyPrecisionD grid_size right
  if parallel = false ∨ left_precise.length < 100 then
    applyPrecisionD grid_size (diffOverlay left_precise right_precise)
  else
    let chunks := _partition_by_bounds (fun r => r.geom) left_precise max_workers
    if chunks.length ≤ 1 then
      applyPrecisionD grid_size (diffOverlay left_precise right_precise)
    else
      match spawn with
      | .error _ => applyPrecisionD grid_size (diffOverlay left_precise right_precise)
      | .ok _ =>
        applyPrecisionD grid_size
          ((chunks.map (fun c => diffOverlay c right_precise)).flatten)

/-- Total area of a difference result (the quantity the parallel/sequential
agreement of `overlay.py` is stated over). -/
def totalArea {σ : Type} (gdf : List (DRow σ)) : ℚ :=
  ((gdf.map (fun r => cellArea r.geom)).sum : ℕ)

/-- Lookup in a key/value table: the value of the first row whose key
matches (the value a pandas merge attaches for that key when keys are
unique). -/
def getVal {ι γ : Type} [DecidableEq ι] (tbl : List (ι × γ)) (k : ι) : Option γ :=
  ((tbl.filter (fun t => decide (t.1 = k))).map (fun t => t.2)).head?

/-- The value the sequential majority-overlap assignment gives one input row:
the attribute of the first overlay feature attaining the maximal overlap
area, or the default when no overlay feature intersects.  (Derived form used
to state the row-wise contract; `_majority_overlap_sequential` is proved
equal to the row-wise map of this function.) -/
def rowValue {ι α : Type} (overlay_gdf : List (OvRow α)) (default_value : Option α)
    (r : InRow ι) : Option α :=
  ((firstMax (rowPairs overlay_gdf r)).map (fun p => p.1)).orElse
    (fun _ => default_value)

/-! ## Theorems: calculators -/

/-- **C6** — Land-use uplift: for every area and every pair of
current/residential coefficients, `calculate_land_use_uplift` returns the
per-nutrient `(residential − current) × area` products rounded to 2 decimal
places, and in particular area `1.5`, current N `10`, residential N `25`,
current P `2`, residential P `5` gives N `22.5` and P `4.5`. -/
theorem calculate_land_use_uplift_contract :
    (∀ a cn rn cp rp : ℚ,
      calculate_land_use_uplift a cn rn cp rp
        = (round2 ((rn - cn) * a), round2 ((rp - cp) * a))) ∧
    calculate_land_use_uplift 1.5 10 25 2 5 = (22.5, 4.5) := by
  refine ⟨fun _ _ _ _ _ => rfl, ?_⟩
  unfold calculate_land_use_uplift round2 roundHalfEven
  norm_num

/-- **C5** — SuDS mitigation: `apply_suds_mitigation` returns
`round2 (u − |u| × r)` per nutrient with
`r = (flow_capture_percent/100) × (removal_rate_percent/100)`, is independent
of the dwelling count (the configured threshold is never enforced), and maps
uplift N `22.5` with capture `100%` and removal `25%` to `16.88`. -/
theorem apply_suds_mitigation_contract :
    (∀ (n p : ℚ) (d : ℤ) (cfg : SuDsConfig),
      apply_suds_mitigation n p d cfg
        = (round2 (n - |n| * ((cfg.flow_capture_percent / 100) *
              (cfg.removal_rate_percent / 100))),
           round2 (p - |p| * ((cfg.flow_capture_percent / 100) *
              (cfg.removal_rate_percent / 100))))) ∧
    (∀ (n p : ℚ) (d d' : ℤ) (cfg : SuDsConfig),
      apply_suds_mitigation n p d cfg = apply_suds_mitigation n p d' cfg) ∧
    (apply_suds_mitigation 22.5 0 7 ⟨50, 100, 25⟩).1 = 16.88 := by
  refine ⟨fun _ _ _ _ => rfl, fun _ _ _ _ _ => rfl, ?_⟩
  unfold apply_suds_mitigation SuDsConfig.total_reduction_factor
  rw [abs_of_nonneg (by norm_num : (0 : ℚ) ≤ 22.5)]
  unfold round2 roundHalfEven
  norm_num

/-- **C7** — Scope filtering: `_filter_out_of_scope` retains exactly the rows
with a catchment-area overlap or a non-sentinel assigned facility name, i.e.
removes exactly the rows with neither value plus the sentinel-fallback rows
outside the catchment. -/
theorem filter_out_of_scope_contract {σ : Type} (rlb_gdf : List (ScopeRow σ)) :
    filter_out_of_scope rlb_gdf = rlb_gdf.filter
      (fun r => r.area_in_nn_catchment_ha.isSome ||
        (r.wwtw_name.isSome &&
          !(decide (r.wwtw_name = some packageTreatmentPlantDefault)))) := by
  unfold filter_out_of_scope
  rw [List.filter_filter]
  apply List.filter_congr
  intro r _
  cases harea : r.area_in_nn_catchment_ha <;> cases hname : r.wwtw_name <;>
    simp [harea, hname]

/-- **C9** — Frame property of precision snapping and repair: both
`apply_precision` and `make_valid_geometries` (for any repair primitive)
keep the row count, the row order and every non-geometry column, and rows
with a null geometry keep a null geometry (more precisely, nullness of the
geometry is preserved row by row). -/
theorem precision_repair_frame {σ : Type} (grid_size : ℚ) (make_valid : Geom → Geom)
    (gdf : List (GeoRow σ)) :
    (apply_precision grid_size gdf).length = gdf.length ∧
    (make_valid_geometries make_valid gdf).length = gdf.length ∧
    List.Forall₂ (fun r' r => r'.attrs = r.attrs ∧ r'.geom.isNone = r.geom.isNone)
      (apply_precision grid_size gdf) gdf ∧
    List.Forall₂ (fun r' r => r'.attrs = r.attrs ∧ r'.geom.isNone = r.geom.isNone)
      (make_valid_geometries make_valid gdf) gdf := by
  refine ⟨by simp [apply_precision], by simp [make_valid_geometries], ?_, ?_⟩ <;>
  · induction gdf with
    | nil => constructor
    | cons r t ih =>
      refine List.Forall₂.cons ⟨rfl, ?_⟩ ih
      cases h : r.geom <;> simp [h]

/-! ## Zone-priority resolution: lemmas and theorem -/

/-- `str.split` never returns an empty list (Python: splitting any string
yields at least one piece). -/
theorem pySplitColon_ne_nil (l : List Char) : pySplitColon l ≠ [] := by
  cases l with
  | nil => simp [pySplitColon]
  | cons c rest =>
    simp only [pySplitColon]
    cases h : pySplitColon rest with
    | nil => simp
    | cons g gs => by_cases hc : c = ':' <;> simp [hc]

/-- Splitting a colon-free string yields the single-piece list. -/
theorem pySplitColon_no_colon {z : List Char} (h : ':' ∉ z) :
    pySplitColon z = [z] := by
  induction z with
  | nil => rfl
  | cons c rest ih =>
    have hc : c ≠ ':' := fun hc => h (hc ▸ List.mem_cons_self c rest)
    have hrest : ':' ∉ rest := fun hr => h (List.mem_cons_of_mem c hr)
    simp only [pySplitColon, ih hrest]
    simp [hc]

/-- Splitting past a leading colon-free piece peels it off. -/
theorem pySplitColon_append (z t : List Char) (h : ':' ∉ z) :
    pySplitColon (z ++ ':' :: t) = z :: pySplitColon t := by
  induction z with
  | nil =>
    simp only [List.nil_append, pySplitColon]
    cases ht : pySplitColon t with
    | nil => exact absurd ht (pySplitColon_ne_nil t)
    | cons g gs => simp
  | cons c rest ih =>
    have hc : c ≠ ':' := fun hc => h (hc ▸ List.mem_cons_self c rest)
    have hrest : ':' ∉ rest := fun hr => h (List.mem_cons_of_mem c hr)
    simp only [List.cons_append, pySplitColon, List.append_eq]
    rw [ih hrest]
    simp [hc]

/-- Splitting on `":"` inverts the `":".join` encoding of a non-empty list of
colon-free labels. -/
theorem pySplitColon_joinColon :
    ∀ {zs : List (List Char)}, zs ≠ [] → (∀ z ∈ zs, ':' ∉ z) →
      pySplitColon (joinColon zs) = zs
  | [], hne, _ => absurd rfl hne
  | [z], _, h => by
    simp only [joinColon]
    exact pySplitColon_no_colon (h z (List.mem_singleton.mpr rfl))
  | z :: y :: zs, _, h => by
    have hz : ':' ∉ z := h z (List.mem_cons_self z _)
    have hrest : ∀ w ∈ y :: zs, ':' ∉ w := fun w hw => h w (List.mem_cons_of_mem z hw)
    simp only [joinColon, pySplitColon_append z _ hz]
    rw [pySplitColon_joinColon (List.cons_ne_nil y zs) hrest]

/-- **C3 (amended)** — Zone priority on the `":"`-joined encoding of a
non-empty set of colon-free labels: `Red` beats `Amber` beats `Green`, and
otherwise the first (sorted) remaining label — in particular the sole
remaining label when only one remains — is returned.  For the empty set the
encoding is the empty string and the result is the empty string: Python's
`"".split(":")` yields `[""]`, so the `"Unknown"` arm is unreachable. -/
theorem highest_zone_priority :
    (∀ zs : List (List Char), zs ≠ [] → (∀ z ∈ zs, ':' ∉ z) →
      highest_zone (joinColon zs) =
        (if "Red".toList ∈ zs then "Red".toList
         else if "Amber".toList ∈ zs then "Amber".toList
         else if "Green".toList ∈ zs then "Green".toList
         else zs.headI)) ∧
    highest_zone (joinColon []) = [] := by
  constructor
  · intro zs hne h
    unfold highest_zone
    rw [pySplitColon_joinColon hne h]
    cases zs with
    | nil => exact absurd rfl hne
    | cons z t => simp [List.headI]
  · rfl

/-- **C3 (counterexample)** — the claim's empty-set case fails on the code:
the empty label set encodes as the empty string, and `highest_zone` maps it
to the empty string, not to `"Unknown"`. -/
theorem highest_zone_empty_not_unknown :
    highest_zone (joinColon []) ≠ "Unknown".toList := by decide

/-- **C3 (witness)** — the priority rule evaluated at the concrete label set
`{Amber, Green}`. -/
theorem highest_zone_priority_witness :
    highest_zone (joinColon [['A', 'm', 'b', 'e', 'r'], ['G', 'r', 'e', 'e', 'n']])
      = "Amber".toList := by
  have h := highest_zone_priority.1 [['A', 'm', 'b', 'e', 'r'], ['G', 'r', 'e', 'e', 'n']]
    (by decide) (by decide)
  rw [h]
  decide

/-! ## Partition lemmas -/

/-- `listMin` bounds every member from below. -/
theorem listMin_le : ∀ (l : List ℚ), ∀ x ∈ l, listMin l ≤ x
  | [], x, hx => absurd hx (List.not_mem_nil x)
  | [y], x, hx => by
    rw [List.mem_singleton] at hx
    subst hx
    exact le_refl _
  | y :: z :: t, x, hx => by
    rcases List.mem_cons.mp hx with rfl | hx2
    · exact min_le_left _ _
    · exact le_trans (min_le_right _ _) (listMin_le (z :: t) x hx2)

/-- `listMax` bounds every member from above. -/
theorem le_listMax : ∀ (l : List ℚ), ∀ x ∈ l, x ≤ listMax l
  | [], x, hx => absurd hx (List.not_mem_nil x)
  | [y], x, hx => by
    rw [List.mem_singleton] at hx
    subst hx
    exact le_refl _
  | y :: z :: t, x, hx => by
    rcases List.mem_cons.mp hx with rfl | hx2
    · exact le_max_left _ _
    · exact le_trans (le_listMax (z :: t) x hx2) (le_max_right _ _)

/-- On a non-empty list the minimum is at most the maximum. -/
theorem listMin_le_listMax {l : List ℚ} (h : l ≠ []) : listMin l ≤ listMax l := by
  cases l with
  | nil => exact absurd rfl h
  | cons x t =>
    exact le_trans (listMin_le _ x (List.mem_cons_self x t))
      (le_listMax _ x (List.mem_cons_self x t))

/-- A uniform lower bound scales to the sum. -/
theorem mul_length_le_sum {lo : ℚ} :
    ∀ {l : List ℚ}, (∀ x ∈ l, lo ≤ x) → lo * l.length ≤ l.sum := by
  intro l
  induction l with
  | nil => simp
  | cons a t ih =>
    intro h
    have ha := h a (List.mem_cons_self a t)
    have ht := ih (fun x hx => h x (List.mem_cons_of_mem a hx))
    simp only [List.sum_cons, List.length_cons]
    push_cast
    have hexp : lo * ((t.length : ℚ) + 1) = lo * t.length + lo := by ring
    rw [hexp]
    linarith

/-- A uniform upper bound scales to the sum. -/
theorem sum_le_mul_length {hi : ℚ} :
    ∀ {l : List ℚ}, (∀ x ∈ l, x ≤ hi) → l.sum ≤ hi * l.length := by
  intro l
  induction l with
  | nil => simp
  | cons a t ih =>
    intro h
    have ha := h a (List.mem_cons_self a t)
    have ht := ih (fun x hx => h x (List.mem_cons_of_mem a hx))
    simp only [List.sum_cons, List.length_cons]
    push_cast
    have hexp : hi * ((t.length : ℚ) + 1) = hi * t.length + hi := by ring
    rw [hexp]
    linarith

/-- The mean of a non-empty list lies between any uniform bounds. -/
theorem mean_mem_Icc {l : List ℚ} (hne : l ≠ []) {lo hi : ℚ}
    (hlo : ∀ x ∈ l, lo ≤ x) (hhi : ∀ x ∈ l, x ≤ hi) :
    lo ≤ l.sum / l.length ∧ l.sum / l.length ≤ hi := by
  have hlen : 0 < (l.length : ℚ) := by exact_mod_cast List.length_pos.mpr hne
  constructor
  · rw [le_div_iff₀ hlen]
    exact mul_length_le_sum hlo
  · rw [div_le_iff₀ hlen]
    exact sum_le_mul_length hhi

/-- Every in-bounds coordinate lands in some chunk slice. -/
theorem inBucket_exists {lo hi c : ℚ} {n : ℕ} (hn : 1 ≤ n) (h1 : lo ≤ c) (h2 : c ≤ hi) :
    ∃ i, i < n ∧ inBucket lo hi n i c = true := by
  by_cases hc : lo + ((n - 1 : ℕ) : ℚ) * ((hi - lo) / n) ≤ c
  · refine ⟨n - 1, Nat.sub_lt (lt_of_lt_of_le Nat.zero_lt_one hn) Nat.zero_lt_one, ?_⟩
    unfold inBucket
    rw [if_neg (lt_irrefl (n - 1))]
    simp only [Bool.and_eq_true, decide_eq_true_eq]
    exact ⟨hc, h2⟩
  · push_neg at hc
    have hspos : 0 < (hi - lo) / n := by
      by_contra hsnp
      push_neg at hsnp
      have hmul : ((n - 1 : ℕ) : ℚ) * ((hi - lo) / n) ≤ 0 :=
        mul_nonpos_iff.mpr (Or.inl ⟨Nat.cast_nonneg _, hsnp⟩)
      linarith
    have ht0 : 0 ≤ (c - lo) / ((hi - lo) / n) := div_nonneg (by linarith) (le_of_lt hspos)
    have hfloor_nonneg : (0 : ℤ) ≤ ⌊(c - lo) / ((hi - lo) / n)⌋ := Int.floor_nonneg.mpr ht0
    refine ⟨(⌊(c - lo) / ((hi - lo) / n)⌋).toNat, ?_, ?_⟩
    ·
      have hcast : (((⌊(c - lo) / ((hi - lo) / n)⌋).toNat : ℕ) : ℚ)
          = ((⌊(c - lo) / ((hi - lo) / n)⌋ : ℤ) : ℚ) := by
        exact_mod_cast congrArg Int.cast (Int.toNat_of_nonneg hfloor_nonneg)
      have hile : (((⌊(c - lo) / ((hi - lo) / n)⌋).toNat : ℕ) : ℚ)
          ≤ (c - lo) / ((hi - lo) / n) := by
        rw [hcast]; exact Int.floor_le _
      have htn : (c - lo) / ((hi - lo) / n) < ((n - 1 : ℕ) : ℚ) := by
        rw [div_lt_iff₀ hspos]
        linarith
      have : (((⌊(c - lo) / ((hi - lo) / n)⌋).toNat : ℕ) : ℚ) < ((n - 1 : ℕ) : ℚ) :=
        lt_of_le_of_lt hile htn
      have hlt : (⌊(c - lo) / ((hi - lo) / n)⌋).toNat < n - 1 := by exact_mod_cast this
      exact lt_of_lt_of_le hlt (Nat.sub_le n 1)
    ·
      have hcast : (((⌊(c - lo) / ((hi - lo) / n)⌋).toNat : ℕ) : ℚ)
          = ((⌊(c - lo) / ((hi - lo) / n)⌋ : ℤ) : ℚ) := by
        exact_mod_cast congrArg Int.cast (Int.toNat_of_nonneg hfloor_nonneg)
      have hile : (((⌊(c - lo) / ((hi - lo) / n)⌋).toNat : ℕ) : ℚ)
          ≤ (c - lo) / ((hi - lo) / n) := by
        rw [hcast]; exact Int.floor_le _
      have hlt1 : (c - lo) / ((hi - lo) / n)
          < (((⌊(c - lo) / ((hi - lo) / n)⌋).toNat : ℕ) : ℚ) + 1 := by
        rw [hcast]; exact Int.lt_floor_add_one _
      have htn : (c - lo) / ((hi - lo) / n) < ((n - 1 : ℕ) : ℚ) := by
        rw [div_lt_iff₀ hspos]
        linarith
      have hltq : (((⌊(c - lo) / ((hi - lo) / n)⌋).toNat : ℕ) : ℚ) < ((n - 1 : ℕ) : ℚ) :=
        lt_of_le_of_lt hile htn
      have hin1 : (⌊(c - lo) / ((hi - lo) / n)⌋).toNat < n - 1 := by exact_mod_cast hltq
      unfold inBucket
      rw [if_pos hin1]
      simp only [Bool.and_eq_true, decide_eq_true_eq]
      constructor
      · have hms : (((⌊(c - lo) / ((hi - lo) / n)⌋).toNat : ℕ) : ℚ) * ((hi - lo) / n)
            ≤ ((c - lo) / ((hi - lo) / n)) * ((hi - lo) / n) :=
          mul_le_mul_of_nonneg_right hile (le_of_lt hspos)
        rw [div_mul_cancel₀ _ (ne_of_gt hspos)] at hms
        linarith
      · have hms : ((c - lo) / ((hi - lo) / n)) * ((hi - lo) / n)
            < ((((⌊(c - lo) / ((hi - lo) / n)⌋).toNat : ℕ) : ℚ) + 1) * ((hi - lo) / n) :=
          mul_lt_mul_of_pos_right hlt1 hspos
        rw [div_mul_cancel₀ _ (ne_of_gt hspos)] at hms
        linarith

/-- Distinct chunk slices are disjoint. -/
theorem inBucket_unique {lo hi c : ℚ} {n i j : ℕ} (hij : i < j) (hjn : j < n)
    (hlh : lo ≤ hi) (hbi : inBucket lo hi n i c = true)
    (hbj : inBucket lo hi n j c = true) : False := by
  have hs : 0 ≤ (hi - lo) / n := div_nonneg (by linarith) (Nat.cast_nonneg n)
  have hin1 : i < n - 1 := by omega
  unfold inBucket at hbi hbj
  rw [if_pos hin1] at hbi
  simp only [Bool.and_eq_true, decide_eq_true_eq] at hbi
  have hbj1 : lo + (j : ℚ) * ((hi - lo) / n) ≤ c := by
    by_cases hj1 : j < n - 1
    · rw [if_pos hj1] at hbj
      simp only [Bool.and_eq_true, decide_eq_true_eq] at hbj
      exact hbj.1
    · rw [if_neg hj1] at hbj
      simp only [Bool.and_eq_true, decide_eq_true_eq] at hbj
      exact hbj.1
  have hcast : ((i : ℚ) + 1) ≤ (j : ℚ) := by exact_mod_cast hij
  have hmul : ((i : ℚ) + 1) * ((hi - lo) / n) ≤ (j : ℚ) * ((hi - lo) / n) :=
    mul_le_mul_of_nonneg_right hcast hs
  linarith [hbi.2]

/-- Filtering by two pointwise-disjoint predicates and appending is a
permutation of filtering by their disjunction. -/
theorem filter_or_perm {β : Type} (p q : β → Bool) :
    ∀ (l : List β), (∀ a ∈ l, p a = true → q a = false) →
      List.Perm (l.filter p ++ l.filter q) (l.filter (fun a => p a || q a))
  | [], _ => by simp
  | a :: l, hdisj => by
    have hl := fun x hx => hdisj x (List.mem_cons_of_mem a hx)
    have ih := filter_or_perm p q l hl
    by_cases hp : p a = true
    · have hq : q a = false := hdisj a (List.mem_cons_self a l) hp
      simp only [List.filter_cons, hp, hq, Bool.true_or, if_true, Bool.false_eq_true,
        if_false, List.cons_append]
      exact ih.cons a
    · have hp' : p a = false := Bool.eq_false_iff.mpr hp
      by_cases hq : q a = true
      · simp only [List.filter_cons, hp', hq, Bool.false_or, if_true, Bool.false_eq_true,
          if_false]
        exact List.Perm.trans List.perm_middle (ih.cons a)
      · have hq' : q a = false := Bool.eq_false_iff.mpr hq
        simp only [List.filter_cons, hp', hq', Bool.false_or, Bool.false_eq_true, if_false]
        exact ih

/-- Flattening the per-predicate filters of a pointwise pairwise-disjoint
predicate list permutes to the filter by their disjunction. -/
theorem filterBuckets_perm {β : Type} :
    ∀ (ps : List (β → Bool)) (l : List β),
      List.Pairwise (fun p q => ∀ a ∈ l, p a = true → q a = false) ps →
      List.Perm ((ps.map (fun p => l.filter p)).flatten)
        (l.filter (fun a => ps.any (fun p => p a)))
  | [], l, _ => by simp
  | p :: ps, l, hpw => by
    rw [List.pairwise_cons] at hpw
    obtain ⟨hhead, htail⟩ := hpw
    have ih := filterBuckets_perm ps l htail
    simp only [List.map_cons, List.flatten_cons]
    have hdisj : ∀ a ∈ l, p a = true → (ps.any (fun q => q a)) = false := by
      intro a ha hpa
      rw [List.any_eq_false]
      intro q hq
      simp [hhead q hq a ha hpa]
    have hstep := filter_or_perm p (fun a => ps.any (fun q => q a)) l hdisj
    have hfinal : (l.filter (fun a => p a || ps.any (fun q => q a)))
        = l.filter (fun a => (p :: ps).any (fun q => q a)) := by
      simp [List.any_cons]
    rw [hfinal] at hstep
    exact List.Perm.trans (List.Perm.append_left _ ih) hstep

/-- The chunks produced by one partitioning axis cover the frame exactly:
their concatenation is a permutation of the frame. -/
theorem partition1D_flatten_perm {β : Type} (coord : β → ℚ) (lo hi : ℚ)
    (gdf : List β) (n : ℕ) (hn : 1 ≤ n) (hlh : lo ≤ hi)
    (hb : ∀ r ∈ gdf, lo ≤ coord r ∧ coord r ≤ hi) :
    List.Perm (partition1D coord lo hi gdf n).flatten gdf := by
  unfold partition1D
  rw [List.flatten_filter_not_isEmpty]
  have hpw : List.Pairwise (fun p q => ∀ a ∈ gdf, p a = true → q a = false)
      ((List.range n).map (fun i => fun r => inBucket lo hi n i (coord r))) := by
    rw [List.pairwise_map]
    refine List.Pairwise.imp_of_mem ?_ (List.pairwise_lt_range n)
    intro i j hi_mem hj_mem hij a _ hpa
    show inBucket lo hi n j (coord a) = false
    have hpa' : inBucket lo hi n i (coord a) = true := hpa
    cases hbj : inBucket lo hi n j (coord a) with
    | false => rfl
    | true => exact (inBucket_unique hij (List.mem_range.mp hj_mem) hlh hpa' hbj).elim
  have hperm := filterBuckets_perm
    ((List.range n).map (fun i => fun r => inBucket lo hi n i (coord r))) gdf hpw
  have hcov : gdf.filter
      (fun a => (((List.range n).map (fun i => fun r => inBucket lo hi n i (coord r))).any
        (fun p => p a))) = gdf := by
    apply List.filter_eq_self.mpr
    intro a ha
    obtain ⟨i, hin, hbkt⟩ := inBucket_exists hn (hb a ha).1 (hb a ha).2
    rw [List.any_eq_true]
    exact ⟨fun r => inBucket lo hi n i (coord r),
      List.mem_map.mpr ⟨i, List.mem_range.mpr hin, rfl⟩, hbkt⟩
  rw [hcov] at hperm
  simp only [List.map_map, Function.comp] at hperm
  exact hperm

/-- A frame with a row and no empty geometries contributes at least one
vertex. -/
theorem flatMap_geom_ne_nil {β : Type} (geomOf : β → Geom) {gdf : List β}
    (hgne : gdf ≠ []) (hg : ∀ r ∈ gdf, geomOf r ≠ []) :
    gdf.flatMap geomOf ≠ [] := by
  cases gdf with
  | nil => exact absurd rfl hgne
  | cons r t =>
    intro hnil
    rw [List.flatMap_cons, List.append_eq_nil] at hnil
    exact hg r (List.mem_cons_self r t) hnil.1

/-- The centroid x-coordinate of every (non-empty) row geometry lies within
the frame's x bounds. -/
theorem centroidX_mem_Icc {β : Type} (geomOf : β → Geom) (gdf : List β) {r : β}
    (hr : r ∈ gdf) (hne : geomOf r ≠ []) :
    listMin (ptsX geomOf gdf) ≤ centroidX (geomOf r) ∧
    centroidX (geomOf r) ≤ listMax (ptsX geomOf gdf) := by
  have hlne : (geomOf r).map Prod.fst ≠ [] := by
    simpa using hne
  have hlo : ∀ x ∈ (geomOf r).map Prod.fst, listMin (ptsX geomOf gdf) ≤ x := by
    intro x hx
    apply listMin_le
    rcases List.mem_map.mp hx with ⟨p, hp, rfl⟩
    exact List.mem_map.mpr ⟨p, List.mem_flatMap.mpr ⟨r, hr, hp⟩, rfl⟩
  have hhi : ∀ x ∈ (geomOf r).map Prod.fst, x ≤ listMax (ptsX geomOf gdf) := by
    intro x hx
    apply le_listMax
    rcases List.mem_map.mp hx with ⟨p, hp, rfl⟩
    exact List.mem_map.mpr ⟨p, List.mem_flatMap.mpr ⟨r, hr, hp⟩, rfl⟩
  have h := mean_mem_Icc hlne hlo hhi
  rw [List.length_map] at h
  exact h

/-- The centroid y-coordinate of every (non-empty) row geometry lies within
the frame's y bounds. -/
theorem centroidY_mem_Icc {β : Type} (geomOf : β → Geom) (gdf : List β) {r : β}
    (hr : r ∈ gdf) (hne : geomOf r ≠ []) :
    listMin (ptsY geomOf gdf) ≤ centroidY (geomOf r) ∧
    centroidY (geomOf r) ≤ listMax (ptsY geomOf gdf) := by
  have hlne : (geomOf r).map Prod.snd ≠ [] := by
    simpa using hne
  have hlo : ∀ x ∈ (geomOf r).map Prod.snd, listMin (ptsY geomOf gdf) ≤ x := by
    intro x hx
    apply listMin_le
    rcases List.mem_map.mp hx with ⟨p, hp, rfl⟩
    exact List.mem_map.mpr ⟨p, List.mem_flatMap.mpr ⟨r, hr, hp⟩, rfl⟩
  have hhi : ∀ x ∈ (geomOf r).map Prod.snd, x ≤ listMax (ptsY geomOf gdf) := by
    intro x hx
    apply le_listMax
    rcases List.mem_map.mp hx with ⟨p, hp, rfl⟩
    exact List.mem_map.mpr ⟨p, List.mem_flatMap.mpr ⟨r, hr, hp⟩, rfl⟩
  have h := mean_mem_Icc hlne hlo hhi
  rw [List.length_map] at h
  exact h

/-- `_partition_by_bounds` never returns an empty chunk list. -/
theorem _partition_by_bounds_ne_nil {β : Type} (geomOf : β → Geom) (gdf : List β)
    (n : ℕ) : _partition_by_bounds geomOf gdf n ≠ [] := by
  unfold _partition_by_bounds
  split
  · simp
  · split
    · split
      · simp
      next h => exact fun hc => h (by simp [hc])
    · split
      · simp
      next h => exact fun hc => h (by simp [hc])

/-- Concatenating the chunks of `_partition_by_bounds` recovers exactly the
input rows (as a permutation), provided no row has an empty geometry. -/
theorem _partition_by_bounds_flatten_perm {β : Type} (geomOf : β → Geom)
    (gdf : List β) (n : ℕ) (hg : ∀ r ∈ gdf, geomOf r ≠ []) :
    List.Perm (_partition_by_bounds geomOf gdf n).flatten gdf := by
  unfold _partition_by_bounds
  by_cases h0 : gdf.length = 0 ∨ n ≤ 1
  · rw [if_pos h0]
    simp
  · rw [if_neg h0]
    push_neg at h0
    obtain ⟨hlen, hn⟩ := h0
    have hn1 : 1 ≤ n := le_of_lt (Nat.lt_of_not_le (by omega))
    have hgne : gdf ≠ [] := fun he => hlen (by simp [he])
    have hfm := flatMap_geom_ne_nil geomOf hgne hg
    by_cases hxy : listMax (ptsY geomOf gdf) - listMin (ptsY geomOf gdf)
        ≤ listMax (ptsX geomOf gdf) - listMin (ptsX geomOf gdf)
    · rw [if_pos hxy]
      have hptsne : ptsX geomOf gdf ≠ [] := by
        unfold ptsX
        simpa using hfm
      split
      · simp
      · exact partition1D_flatten_perm _ _ _ gdf n hn1 (listMin_le_listMax hptsne)
          (fun r hr => centroidX_mem_Icc geomOf gdf hr (hg r hr))
    · rw [if_neg hxy]
      have hptsne : ptsY geomOf gdf ≠ [] := by
        unfold ptsY
        simpa using hfm
      split
      · simp
      · exact partition1D_flatten_perm _ _ _ gdf n hn1 (listMin_le_listMax hptsne)
          (fun r hr => centroidY_mem_Icc geomOf gdf hr (hg r hr))

/-- **C10** — Partition invariant: for every non-empty frame whose rows all
have a (non-empty) geometry and every chunk count `n ≥ 1`,
`_partition_by_bounds` returns a non-empty list of chunks whose concatenation
is exactly the input rows — no row duplicated or dropped (each row goes to
the single chunk its centroid falls in). -/
theorem partition_by_bounds_invariant {β : Type} (geomOf : β → Geom) (gdf : List β)
    (n : ℕ) (hne : gdf ≠ []) (hn : 1 ≤ n) (hg : ∀ r ∈ gdf, geomOf r ≠ []) :
    _partition_by_bounds geomOf gdf n ≠ [] ∧
    List.Perm (_partition_by_bounds geomOf gdf n).flatten gdf :=
  ⟨_partition_by_bounds_ne_nil geomOf gdf n,
   _partition_by_bounds_flatten_perm geomOf gdf n hg⟩

/-- **C10 (witness)** — the partition invariant evaluated on a concrete
two-row frame split into two chunks. -/
theorem partition_by_bounds_invariant_witness :
    _partition_by_bounds (fun r : InRow ℕ => r.geom)
      [⟨1, [(0, 0)]⟩, ⟨2, [(10, 0)]⟩] 2 ≠ [] ∧
    List.Perm (_partition_by_bounds (fun r : InRow ℕ => r.geom)
      [⟨1, [(0, 0)]⟩, ⟨2, [(10, 0)]⟩] 2).flatten
      [⟨1, [(0, 0)]⟩, ⟨2, [(10, 0)]⟩] :=
  partition_by_bounds_invariant (fun r : InRow ℕ => r.geom)
    [⟨1, [(0, 0)]⟩, ⟨2, [(10, 0)]⟩] 2 (by decide) (by decide) (by decide)

/-! ## Majority-overlap lemmas -/

/-- `firstMax` is `none` exactly on the empty list. -/
theorem firstMax_eq_none_iff {α : Type} :
    ∀ (l : List (α × ℕ)), firstMax l = none ↔ l = []
  | [] => by simp [firstMax]
  | x :: xs => by
    cases hm : firstMax xs with
    | none => simp [firstMax, hm]
    | some y =>
      simp only [firstMax, hm]
      constructor
      · intro hc
        split at hc <;> simp at hc
      · intro hc
        simp at hc

/-- The element `firstMax` picks is a member. -/
theorem firstMax_mem {α : Type} :
    ∀ {l : List (α × ℕ)} {p : α × ℕ}, firstMax l = some p → p ∈ l
  | [], p, h => by simp [firstMax] at h
  | x :: xs, p, h => by
    cases hm : firstMax xs with
    | none =>
      simp only [firstMax, hm, Option.some_inj] at h
      subst h
      exact List.mem_cons_self x xs
    | some y =>
      simp only [firstMax, hm] at h
      split at h
      · rw [Option.some_inj] at h
        subst h
        exact List.mem_cons_of_mem x (firstMax_mem hm)
      · rw [Option.some_inj] at h
        subst h
        exact List.mem_cons_self x xs

/-- The element `firstMax` picks attains the maximal score. -/
theorem firstMax_is_max {α : Type} :
    ∀ {l : List (α × ℕ)} {p : α × ℕ}, firstMax l = some p → ∀ q ∈ l, q.2 ≤ p.2
  | [], p, h => by simp [firstMax] at h
  | x :: xs, p, h => by
    intro q hq
    cases hm : firstMax xs with
    | none =>
      simp only [firstMax, hm, Option.some_inj] at h
      subst h
      have hxs : xs = [] := (firstMax_eq_none_iff xs).mp hm
      subst hxs
      rw [List.mem_singleton] at hq
      subst hq
      exact le_refl _
    | some y =>
      simp only [firstMax, hm] at h
      rcases List.mem_cons.mp hq with rfl | hq2
      · split at h
        · next hlt =>
          rw [Option.some_inj] at h
          subst h
          exact le_of_lt hlt
        · rw [Option.some_inj] at h
          subst h
          exact le_refl _
      · have hle := firstMax_is_max hm q hq2
        split at h
        · rw [Option.some_inj] at h
          subst h
          exact hle
        · next hnlt =>
          rw [Option.some_inj] at h
          subst h
          exact le_trans hle (le_of_not_lt hnlt)

/-- Under unique table keys, the by-key filter is empty or the matching
singleton, as `getVal` reports. -/
theorem filter_key_eq_of_nodup {ι γ : Type} [DecidableEq ι] :
    ∀ (tbl : List (ι × γ)), (tbl.map Prod.fst).Nodup → ∀ k : ι,
      tbl.filter (fun t => decide (t.1 = k)) =
        (match getVal tbl k with
         | none => []
         | some v => [(k, v)])
  | [], _, k => rfl
  | t :: ts, hnd, k => by
    rw [List.map_cons, List.nodup_cons] at hnd
    obtain ⟨hhead, htail⟩ := hnd
    by_cases hk : t.1 = k
    · have hrest : ts.filter (fun u => decide (u.1 = k)) = [] := by
        rw [List.filter_eq_nil_iff]
        intro u hu
        have : u.1 ∈ ts.map Prod.fst := List.mem_map.mpr ⟨u, hu, rfl⟩
        simp only [decide_eq_true_eq]
        intro huk
        exact hhead (by rw [hk, ← huk]; exact this)
      have hfil : (t :: ts).filter (fun u => decide (u.1 = k)) = [t] := by
        rw [List.filter_cons, if_pos (by simp [hk]), hrest]
      rw [hfil]
      unfold getVal
      rw [hfil]
      simp only [List.map_cons, List.map_nil, List.head?]
      rw [show t = (k, t.2) from by rw [← hk]]
    · have hfil : (t :: ts).filter (fun u => decide (u.1 = k))
          = ts.filter (fun u => decide (u.1 = k)) := by
        rw [List.filter_cons, if_neg (by simp [hk])]
      rw [hfil]
      unfold getVal
      rw [hfil]
      exact filter_key_eq_of_nodup ts htail k

/-- Under unique table keys a left-merge attaches exactly `getVal` per left
row. -/
theorem mergeLeft_eq_map_getVal {β γ ι : Type} [DecidableEq ι] (left : List β)
    (key : β → ι) (tbl : List (ι × γ)) (hnd : (tbl.map Prod.fst).Nodup) :
    mergeLeft left key tbl = left.map (fun b => (b, getVal tbl (key b))) := by
  unfold mergeLeft
  induction left with
  | nil => rfl
  | cons b bs ih =>
    rw [List.flatMap_cons, ih, List.map_cons]
    have hsingle : (match tbl.filter (fun t => decide (t.1 = key b)) with
        | [] => [(b, (none : Option γ))]
        | m :: ms => (m :: ms).map (fun t => (b, some t.2)))
        = [(b, getVal tbl (key b))] := by
      cases hv : getVal tbl (key b) with
      | none => rw [filter_key_eq_of_nodup tbl hnd (key b), hv]
      | some v =>
        rw [filter_key_eq_of_nodup tbl hnd (key b), hv]
        rfl
    rw [hsingle, List.singleton_append]

/-- `getVal` on a table built by mapping key/value extractors over a
unique-key row list returns the row's own value at the row's key. -/
theorem getVal_map_of_mem {β ι γ : Type} [DecidableEq ι] (key : β → ι) (val : β → γ) :
    ∀ (l : List β) (r : β), (l.map key).Nodup → r ∈ l →
      getVal (l.map (fun x => (key x, val x))) (key r) = some (val r)
  | [], r, _, hr => absurd hr (List.not_mem_nil r)
  | x :: xs, r, hnd, hr => by
    rw [List.map_cons, List.nodup_cons] at hnd
    obtain ⟨hhead, htail⟩ := hnd
    rcases List.mem_cons.mp hr with rfl | hr2
    · unfold getVal
      rw [List.map_cons, List.filter_cons, if_pos (by simp)]
      rfl
    · have hne : key x ≠ key r :=
        fun he => hhead (he ▸ List.mem_map.mpr ⟨r, hr2, rfl⟩)
      unfold getVal
      rw [List.map_cons, List.filter_cons, if_neg (by simp [hne])]
      exact getVal_map_of_mem key val xs r htail hr2

/-- The keys of a table built by `filterMap` over a key list form a sublist
of the key list. -/
theorem map_fst_filterMap_sublist {ι γ : Type} (g : ι → Option γ) :
    ∀ (keys : List ι),
      List.Sublist ((keys.filterMap (fun i => (g i).map (fun v => (i, v)))).map Prod.fst)
        keys
  | [] => List.Sublist.refl []
  | i :: is => by
    rw [List.filterMap_cons]
    cases g i with
    | none =>
      simp only [Option.map_none']
      exact List.Sublist.cons i (map_fst_filterMap_sublist g is)
    | some v =>
      simp only [Option.map_some', List.map_cons]
      exact List.Sublist.cons₂ i (map_fst_filterMap_sublist g is)

/-- `getVal` misses on a `filterMap`-built table whenever the key is not in
the underlying key list. -/
theorem getVal_filterMap_not_mem {ι γ : Type} [DecidableEq ι] (g : ι → Option γ) :
    ∀ (keys : List ι) (k : ι), k ∉ keys →
      getVal (keys.filterMap (fun i => (g i).map (fun v => (i, v)))) k = none
  | [], k, _ => rfl
  | i :: is, k, hk => by
    have hki : k ≠ i := fun he => hk (he ▸ List.mem_cons_self i is)
    have hkis : k ∉ is := fun he => hk (List.mem_cons_of_mem i he)
    rw [List.filterMap_cons]
    cases g i with
    | none =>
      simp only [Option.map_none']
      exact getVal_filterMap_not_mem g is k hkis
    | some v =>
      simp only [Option.map_some']
      unfold getVal
      rw [List.filter_cons, if_neg (by simp [Ne.symm hki])]
      exact getVal_filterMap_not_mem g is k hkis

/-- `getVal` on a `filterMap`-built table over unique keys returns the
generator's value at present keys and misses otherwise. -/
theorem getVal_filterMap {ι γ : Type} [DecidableEq ι] (g : ι → Option γ) :
    ∀ (keys : List ι), keys.Nodup → ∀ k : ι,
      getVal (keys.filterMap (fun i => (g i).map (fun v => (i, v)))) k
        = if k ∈ keys then g k else none
  | [], _, k => by simp [getVal]
  | i :: is, hnd, k => by
    rw [List.nodup_cons] at hnd
    obtain ⟨hhead, htail⟩ := hnd
    rw [List.filterMap_cons]
    by_cases hk : k = i
    · subst hk
      rw [if_pos (List.mem_cons_self k is)]
      cases hg : g k with
      | none =>
        simp only [Option.map_none']
        exact getVal_filterMap_not_mem g is k hhead
      | some v =>
        simp only [Option.map_some']
        unfold getVal
        rw [List.filter_cons, if_pos (by simp)]
        rfl
    · have hmem : (if k ∈ i :: is then g k else none)
          = (if k ∈ is then g k else none) := by
        by_cases h2 : k ∈ is <;> simp [List.mem_cons, hk, h2]
      rw [hmem]
      cases hg : g i with
      | none =>
        simp only [Option.map_none']
        exact getVal_filterMap g is htail k
      | some v =>
        simp only [Option.map_some']
        unfold getVal
        rw [List.filter_cons, if_neg (by simp [Ne.symm hk])]
        exact getVal_filterMap g is htail k

/-- Every intersection row's id column is an input id. -/
theorem overlayIntersections_key_mem {ι α : Type} (inputs : List (InRow ι))
    (overlay : List (OvRow α)) :
    ∀ t ∈ overlayIntersections inputs overlay, t.1 ∈ inputs.map (fun x => x.id) := by
  intro t ht
  rcases List.mem_flatMap.mp ht with ⟨x, hx, htx⟩
  rcases List.mem_map.mp htx with ⟨p, _, rfl⟩
  exact List.mem_map.mpr ⟨x, hx, rfl⟩

/-- With unique input ids, grouping the intersection overlay by one input's
id recovers exactly that input's overlay pairs. -/
theorem overlayIntersections_filter_key {ι α : Type} [DecidableEq ι]
    (overlay : List (OvRow α)) :
    ∀ (inputs : List (InRow ι)) (r : InRow ι),
      (inputs.map (fun x => x.id)).Nodup → r ∈ inputs →
      (overlayIntersections inputs overlay).filter (fun t => decide (t.1 = r.id))
        = (rowPairs overlay r).map (fun p => (r.id, p))
  | [], r, _, hr => absurd hr (List.not_mem_nil r)
  | x :: xs, r, hnd, hr => by
    rw [List.map_cons, List.nodup_cons] at hnd
    obtain ⟨hhead, htail⟩ := hnd
    have hunf : overlayIntersections (x :: xs) overlay
        = (rowPairs overlay x).map (fun p => (x.id, p))
          ++ overlayIntersections xs overlay := rfl
    rw [hunf, List.filter_append]
    rcases List.mem_cons.mp hr with rfl | hr2
    · have hfirst : ((rowPairs overlay r).map (fun p => (r.id, p))).filter
          (fun t => decide (t.1 = r.id))
          = (rowPairs overlay r).map (fun p => (r.id, p)) := by
        apply List.filter_eq_self.mpr
        intro t ht
        rcases List.mem_map.mp ht with ⟨p, _, rfl⟩
        simp
      have hsecond : (overlayIntersections xs overlay).filter
          (fun t => decide (t.1 = r.id)) = [] := by
        rw [List.filter_eq_nil_iff]
        intro t ht
        have := overlayIntersections_key_mem xs overlay t ht
        simp only [decide_eq_true_eq]
        intro he
        exact hhead (he ▸ this)
      rw [hfirst, hsecond, List.append_nil]
    · have hne : x.id ≠ r.id :=
        fun he => hhead (he ▸ List.mem_map.mpr ⟨r, hr2, rfl⟩)
      have hfirst : ((rowPairs overlay x).map (fun p => (x.id, p))).filter
          (fun t => decide (t.1 = r.id)) = [] := by
        rw [List.filter_eq_nil_iff]
        intro t ht
        rcases List.mem_map.mp ht with ⟨p, _, rfl⟩
        simp [hne]
      rw [hfirst, List.nil_append]
      exact overlayIntersections_filter_key overlay xs r htail hr2

/-- `groupFirstMax` in the generator/`filterMap` normal form the `getVal`
lemmas are stated over. -/
theorem groupFirstMax_eq_filterMap {ι α : Type} [DecidableEq ι]
    (inters : List (ι × α × ℕ)) :
    groupFirstMax inters = (inters.map (fun t => t.1)).dedup.filterMap
      (fun i => (((firstMax ((inters.filter
        (fun t => decide (t.1 = i))).map (fun t => t.2))).map
          (fun p => p.1)).map (fun v => (i, v)))) := by
  unfold groupFirstMax
  refine congrArg
    (fun f => List.filterMap f ((inters.map (fun t => t.1)).dedup))
    (funext fun i => ?_)
  cases firstMax ((inters.filter
    (fun t => decide (t.1 = i))).map (fun t => t.2)) <;> rfl

/-- The majority table's keys are unique. -/
theorem groupFirstMax_keys_nodup {ι α : Type} [DecidableEq ι]
    (inters : List (ι × α × ℕ)) :
    ((groupFirstMax inters).map Prod.fst).Nodup := by
  rw [groupFirstMax_eq_filterMap]
  exact (map_fst_filterMap_sublist _ _).nodup (List.nodup_dedup _)

/-- With unique input ids the majority table's entry at an input's id is the
first maximal-overlap attribute among that input's overlay pairs. -/
theorem getVal_groupFirstMax {ι α : Type} [DecidableEq ι]
    (inputs : List (InRow ι)) (overlay : List (OvRow α)) (r : InRow ι)
    (hnd : (inputs.map (fun x => x.id)).Nodup) (hr : r ∈ inputs) :
    getVal (groupFirstMax (overlayIntersections inputs overlay)) r.id
      = (firstMax (rowPairs overlay r)).map (fun p => p.1) := by
  rw [groupFirstMax_eq_filterMap, getVal_filterMap _ _ (List.nodup_dedup _) r.id]
  by_cases hmem : r.id ∈ ((overlayIntersections inputs overlay).map (fun t => t.1)).dedup
  · rw [if_pos hmem, overlayIntersections_filter_key overlay inputs r hnd hr,
      List.map_map]
    have hcomp : ((fun t : ι × α × ℕ => t.2) ∘ (fun p : α × ℕ => (r.id, p)))
        = id := rfl
    rw [hcomp, List.map_id]
  · rw [if_neg hmem]
    have hemp : rowPairs overlay r = [] := by
      cases hp : rowPairs overlay r with
      | nil => rfl
      | cons p ps =>
        exfalso
        apply hmem
        rw [List.mem_dedup]
        apply List.mem_map.mpr
        refine ⟨(r.id, p), ?_, rfl⟩
        exact List.mem_flatMap.mpr
          ⟨r, hr, by rw [hp]; exact List.mem_map.mpr ⟨p, List.mem_cons_self p ps, rfl⟩⟩
    rw [hemp]
    rfl

/-- Master normal form of the sequential assignment: with unique input ids,
`_majority_overlap_sequential` is the row-wise map attaching `rowValue`. -/
theorem _majority_overlap_sequential_eq_map {ι α : Type} [DecidableEq ι]
    (inputs : List (InRow ι)) (overlay : List (OvRow α)) (default : Option α)
    (hnd : (inputs.map (fun x => x.id)).Nodup) :
    _majority_overlap_sequential inputs overlay default
      = inputs.map (fun r => (r, rowValue overlay default r)) := by
  have hmnd := groupFirstMax_keys_nodup (overlayIntersections inputs overlay)
  have hassign : ((mergeLeft (inputs.map fun r => r.id) id
      (groupFirstMax (overlayIntersections inputs overlay))).map
      (fun p => (p.1, p.2.orElse fun _ => default)))
      = inputs.map (fun r => (r.id, rowValue overlay default r)) := by
    rw [mergeLeft_eq_map_getVal _ id _ hmnd, List.map_map, List.map_map]
    apply List.map_congr_left
    intro r hr
    simp only [Function.comp, id]
    rw [getVal_groupFirstMax inputs overlay r hnd hr]
    rfl
  have hand : ((inputs.map (fun r => (r.id, rowValue overlay default r))).map
      Prod.fst).Nodup := by
    rw [List.map_map]
    simpa [Function.comp] using hnd
  simp only [_majority_overlap_sequential]
  rw [hassign, mergeLeft_eq_map_getVal inputs (fun r => r.id) _ hand, List.map_map]
  apply List.map_congr_left
  intro r hr
  simp only [Function.comp]
  rw [getVal_map_of_mem (fun x => x.id) (fun x => rowValue overlay default x)
    inputs r hnd hr]
  rfl

/-- Chunks produced by one partitioning axis are sublists of the frame. -/
theorem partition1D_mem_sublist {β : Type} (coord : β → ℚ) (lo hi : ℚ)
    (gdf : List β) (n : ℕ) :
    ∀ c ∈ partition1D coord lo hi gdf n, List.Sublist c gdf := by
  intro c hc
  unfold partition1D at hc
  have hmem := List.mem_of_mem_filter hc
  rcases List.mem_map.mp hmem with ⟨i, _, rfl⟩
  exact List.filter_sublist gdf

/-- Chunks produced by `_partition_by_bounds` are sublists of the frame. -/
theorem _partition_by_bounds_mem_sublist {β : Type} (geomOf : β → Geom)
    (gdf : List β) (n : ℕ) :
    ∀ c ∈ _partition_by_bounds geomOf gdf n, List.Sublist c gdf := by
  intro c hc
  unfold _partition_by_bounds at hc
  split at hc
  · rw [List.mem_singleton] at hc
    subst hc
    exact List.Sublist.refl _
  · split at hc
    · split at hc
      · rw [List.mem_singleton] at hc
        subst hc
        exact List.Sublist.refl _
      · exact partition1D_mem_sublist _ _ _ gdf n c hc
    · split at hc
      · rw [List.mem_singleton] at hc
        subst hc
        exact List.Sublist.refl _
      · exact partition1D_mem_sublist _ _ _ gdf n c hc

/-- **C1** — Majority-overlap assignment contract: for unique input ids the
sequential assignment returns the input rows in order with exactly one value
per input id; a row intersecting no overlay feature gets the default, and a
row intersecting some overlay feature gets the attribute of an intersecting
overlay feature of maximal intersection area. -/
theorem majority_overlap_assignment_contract {ι α : Type} [DecidableEq ι]
    (input_gdf : List (InRow ι)) (overlay_gdf : List (OvRow α))
    (default_value : Option α)
    (hnd : (input_gdf.map (fun x => x.id)).Nodup) :
    (_majority_overlap_sequential input_gdf overlay_gdf default_value).map Prod.fst
      = input_gdf ∧
    ∀ p ∈ _majority_overlap_sequential input_gdf overlay_gdf default_value,
      ((∀ o ∈ overlay_gdf, intersectsB p.1.geom o.geom = false) →
        p.2 = default_value) ∧
      ((∃ o ∈ overlay_gdf, intersectsB p.1.geom o.geom = true) →
        ∃ o ∈ overlay_gdf, intersectsB p.1.geom o.geom = true ∧ p.2 = some o.attr ∧
          ∀ o2 ∈ overlay_gdf,
            interArea p.1.geom o2.geom ≤ interArea p.1.geom o.geom) := by
  rw [_majority_overlap_sequential_eq_map _ _ _ hnd]
  constructor
  · rw [List.map_map]
    have hcomp : (Prod.fst ∘ fun r : InRow ι =>
        (r, rowValue overlay_gdf default_value r)) = id := rfl
    rw [hcomp, List.map_id]
  · intro p hp
    rcases List.mem_map.mp hp with ⟨r, _, rfl⟩
    constructor
    · intro hnone
      have hemp : rowPairs overlay_gdf r = [] := by
        unfold rowPairs
        have : overlay_gdf.filter (fun o => intersectsB r.geom o.geom) = [] := by
          rw [List.filter_eq_nil_iff]
          intro o ho
          simp [hnone o ho]
        rw [this]
        rfl
      show rowValue overlay_gdf default_value r = default_value
      unfold rowValue
      rw [hemp]
      rfl
    · rintro ⟨o, ho, hint⟩
      have hne : rowPairs overlay_gdf r ≠ [] := by
        unfold rowPairs
        intro hemp
        rw [List.map_eq_nil_iff, List.filter_eq_nil_iff] at hemp
        exact hemp o ho (by simp [hint])
      cases hfm : firstMax (rowPairs overlay_gdf r) with
      | none => exact absurd ((firstMax_eq_none_iff _).mp hfm) hne
      | some q =>
        have hqmem := firstMax_mem hfm
        unfold rowPairs at hqmem
        rcases List.mem_map.mp hqmem with ⟨o', ho'f, hq⟩
        obtain ⟨ho'mem, ho'int⟩ := List.mem_filter.mp ho'f
        refine ⟨o', ho'mem, ho'int, ?_, ?_⟩
        · show rowValue overlay_gdf default_value r = some o'.attr
          unfold rowValue
          rw [hfm, ← hq]
          rfl
        · intro o2 ho2
          by_cases hint2 : intersectsB r.geom o2.geom = true
          · have hmem2 : (o2.attr, interArea r.geom o2.geom) ∈ rowPairs overlay_gdf r :=
              List.mem_map.mpr ⟨o2, List.mem_filter.mpr ⟨ho2, hint2⟩, rfl⟩
            have hle := firstMax_is_max hfm _ hmem2
            rw [← hq] at hle
            exact hle
          · have hz : interArea r.geom o2.geom = 0 := by
              unfold intersectsB at hint2
              simp only [decide_eq_true_eq, Decidable.not_not] at hint2
              unfold interArea
              rw [hint2]
              rfl
            rw [hz]
            exact Nat.zero_le _

/-- **C1 (witness)** — the contract instantiated on a concrete two-row input
against a two-feature overlay (one row with overlaps, one without). -/
theorem majority_overlap_assignment_contract_witness :
    (([⟨1, [(0, 0), (1, 0)]⟩, ⟨2, [(5, 5)]⟩] : List (InRow ℕ)).map
      (fun x => x.id)).Nodup ∧
    (_majority_overlap_sequential
      ([⟨1, [(0, 0), (1, 0)]⟩, ⟨2, [(5, 5)]⟩] : List (InRow ℕ))
      ([⟨10, [(0, 0)]⟩, ⟨20, [(0, 0), (1, 0)]⟩] : List (OvRow ℕ))
      (some 99)).map Prod.fst
      = [⟨1, [(0, 0), (1, 0)]⟩, ⟨2, [(5, 5)]⟩] :=
  ⟨by decide,
   (majority_overlap_assignment_contract _ _ (some 99) (by decide)).1⟩

/-- Merging back the concatenated per-chunk sequential results equals the
sequential assignment, for any chunk list that is made of sublists of the
input and concatenates to a permutation of it. -/
theorem mergeback_chunks_eq_sequential {ι α : Type} [DecidableEq ι]
    (input_gdf : List (InRow ι)) (overlay_gdf : List (OvRow α))
    (default_value : Option α) (L : List (List (InRow ι)))
    (hnd : (input_gdf.map (fun x => x.id)).Nodup)
    (hsub : ∀ c ∈ L, List.Sublist c input_gdf)
    (hperm : List.Perm L.flatten input_gdf) :
    (mergeLeft input_gdf (fun r => r.id)
      (((L.map (fun c =>
        _majority_overlap_sequential c overlay_gdf default_value)).flatten).map
        (fun p => (p.1.id, p.2)))).map (fun p => (p.1, p.2.join))
      = _majority_overlap_sequential input_gdf overlay_gdf default_value := by
  have hres : L.map (fun c => _majority_overlap_sequential c overlay_gdf default_value)
      = L.map (List.map (fun r => (r, rowValue overlay_gdf default_value r))) := by
    apply List.map_congr_left
    intro c hc
    exact _majority_overlap_sequential_eq_map _ _ _ (((hsub c hc).map _).nodup hnd)
  rw [hres, ← List.map_flatten, List.map_map]
  have hcomp : ((fun p : InRow ι × Option α => (p.1.id, p.2)) ∘
      (fun r => (r, rowValue overlay_gdf default_value r)))
      = fun r : InRow ι => (r.id, rowValue overlay_gdf default_value r) := rfl
  rw [hcomp]
  have hfnd : (L.flatten.map (fun x : InRow ι => x.id)).Nodup :=
    (List.Perm.nodup_iff (hperm.map _)).mpr hnd
  have hknd : ((L.flatten.map (fun r : InRow ι =>
      (r.id, rowValue overlay_gdf default_value r))).map Prod.fst).Nodup := by
    rw [List.map_map]
    exact hfnd
  rw [mergeLeft_eq_map_getVal input_gdf (fun r => r.id) _ hknd, List.map_map,
    _majority_overlap_sequential_eq_map _ _ _ hnd]
  apply List.map_congr_left
  intro r hr
  simp only [Function.comp]
  rw [getVal_map_of_mem (fun x => x.id)
    (fun x => rowValue overlay_gdf default_value x) L.flatten r hfnd
    (hperm.mem_iff.mpr hr)]
  rfl

/-- **C2** — Local-parallel majority overlap equals the sequential form: for
unique input ids (and rows with actual geometries), partitioning into chunks,
per-chunk sequential processing, concatenation and merge-back produce exactly
the sequential assignment, row for row — in particular the same assigned
value for every input id. -/
theorem majority_overlap_parallel_eq_sequential {ι α : Type} [DecidableEq ι]
    (input_gdf : List (InRow ι)) (overlay_gdf : List (OvRow α))
    (default_value : Option α) (max_workers : ℕ)
    (hnd : (input_gdf.map (fun x => x.id)).Nodup)
    (hg : ∀ r ∈ input_gdf, r.geom ≠ []) :
    majority_overlap (Except.ok ()) input_gdf overlay_gdf default_value true
      max_workers
      = _majority_overlap_sequential input_gdf overlay_gdf default_value := by
  simp only [majority_overlap]
  split
  · rfl
  · split
    · rfl
    · exact mergeback_chunks_eq_sequential input_gdf overlay_gdf default_value
        (_partition_by_bounds (fun r => r.geom) input_gdf max_workers) hnd
        (_partition_by_bounds_mem_sublist _ _ _)
        (_partition_by_bounds_flatten_perm _ _ _ hg)

/-- **C2 (witness)** — parallel/sequential agreement on a concrete two-row
input (the small-input path of `majority_overlap`). -/
theorem majority_overlap_parallel_eq_sequential_witness :
    majority_overlap (Except.ok ())
      ([⟨1, [(0, 0), (1, 0)]⟩, ⟨2, [(5, 5)]⟩] : List (InRow ℕ))
      ([⟨10, [(0, 0)]⟩, ⟨20, [(0, 0), (1, 0)]⟩] : List (OvRow ℕ))
      (some 99) true 4
      = _majority_overlap_sequential
        ([⟨1, [(0, 0), (1, 0)]⟩, ⟨2, [(5, 5)]⟩] : List (InRow ℕ))
        ([⟨10, [(0, 0)]⟩, ⟨20, [(0, 0), (1, 0)]⟩] : List (OvRow ℕ))
        (some 99) :=
  majority_overlap_parallel_eq_sequential _ _ (some 99) 4 (by decide) (by decide)

/-- **C8** — Parallel-denial recovery: whenever process-pool creation raises
a spawn-denial error, `majority_overlap` returns exactly the sequential
assignment of the full input and `spatial_difference_with_precision` returns
exactly its sequential (`parallel=False`) result; in both cases the error is
absorbed, not propagated (both functions are total and return plain
values). -/
theorem parallel_denial_recovers_sequentially {ι α σ τ : Type} [DecidableEq ι]
    (e : SpawnErr) (input_gdf : List (InRow ι)) (overlay_gdf : List (OvRow α))
    (default_value : Option α) (max_workers : ℕ)
    (left : List (DRow σ)) (right : List (DRow τ)) (grid_size : ℚ) :
    majority_overlap (Except.error e) input_gdf overlay_gdf default_value true
      max_workers
      = _majority_overlap_sequential input_gdf overlay_gdf default_value ∧
    spatial_difference_with_precision (Except.error e) left right grid_size true
      max_workers
      = spatial_difference_with_precision (Except.error e) left right grid_size
        false max_workers := by
  constructor
  · simp only [majority_overlap]
    split
    · rfl
    · split
      · rfl
      · rfl
  · have hseq : spatial_difference_with_precision (Except.error e) left right
        grid_size false max_workers
        = applyPrecisionD grid_size (diffOverlay (applyPrecisionD grid_size left)
            (applyPrecisionD grid_size right)) := by
      simp only [spatial_difference_with_precision]
      rw [if_pos (Or.inl trivial)]
    rw [hseq]
    simp only [spatial_difference_with_precision]
    split
    · rfl
    · split
      · rfl
      · rfl

/-- Total area is invariant under permutation of the rows. -/
theorem totalArea_congr_perm {σ : Type} {l1 l2 : List (DRow σ)}
    (h : List.Perm l1 l2) : totalArea l1 = totalArea l2 := by
  unfold totalArea
  norm_cast
  exact (h.map _).sum_eq

/-- Snapping preserves geometry non-emptiness row by row. -/
theorem applyPrecisionD_geom_ne_nil {σ : Type} (grid_size : ℚ)
    {left : List (DRow σ)} (hg : ∀ r ∈ left, r.geom ≠ []) :
    ∀ r ∈ applyPrecisionD grid_size left, r.geom ≠ [] := by
  intro r hr
  rcases List.mem_map.mp hr with ⟨x, hx, rfl⟩
  show snapGeom grid_size x.geom ≠ []
  unfold snapGeom
  simpa using hg x hx

/-- The chunked difference results concatenate to the difference of the
concatenated chunks. -/
theorem diffOverlay_flatten {σ τ : Type} (L : List (List (DRow σ)))
    (right : List (DRow τ)) :
    (L.map (fun c => diffOverlay c right)).flatten = diffOverlay L.flatten right := by
  unfold diffOverlay
  exact (List.filterMap_flatten _ _).symm

/-- **C4** — Parallel and sequential precision-snapped difference agree on
total output area within `1e-6` relative tolerance (in the exact model they
agree exactly: chunking the left frame only reorders the per-row
differences). -/
theorem spatial_difference_parallel_sequential_area {σ τ : Type}
    (left : List (DRow σ)) (right : List (DRow τ)) (grid_size : ℚ)
    (max_workers : ℕ) (hg : ∀ r ∈ left, r.geom ≠ []) :
    |totalArea (spatial_difference_with_precision (Except.ok ()) left right
        grid_size true max_workers)
      - totalArea (spatial_difference_with_precision (Except.ok ()) left right
        grid_size false max_workers)|
      ≤ (1 / 1000000) * |totalArea (spatial_difference_with_precision
        (Except.ok ()) left right grid_size false max_workers)| := by
  have hseq : spatial_difference_with_precision (Except.ok ()) left right
      grid_size false max_workers
      = applyPrecisionD grid_size (diffOverlay (applyPrecisionD grid_size left)
          (applyPrecisionD grid_size right)) := by
    simp only [spatial_difference_with_precision]
    rw [if_pos (Or.inl trivial)]
  have key : totalArea (spatial_difference_with_precision (Except.ok ()) left right
      grid_size true max_workers)
      = totalArea (spatial_difference_with_precision (Except.ok ()) left right
        grid_size false max_workers) := by
    rw [hseq]
    simp only [spatial_difference_with_precision]
    split
    · rfl
    · split
      · rfl
      · rw [diffOverlay_flatten]
        exact totalArea_congr_perm
          ((((_partition_by_bounds_flatten_perm _ _ max_workers
            (applyPrecisionD_geom_ne_nil grid_size hg)).filterMap _).map _))
  rw [key, sub_self, abs_zero]
  positivity

/-- **C4 (witness)** — the area-agreement bound evaluated on a concrete
one-row left frame against a one-row right frame. -/
theorem spatial_difference_parallel_sequential_area_witness :
    |totalArea (spatial_difference_with_precision (Except.ok ())
        ([⟨(), [(0, 0), (1, 1)]⟩] : List (DRow Unit))
        ([⟨(), [(1, 1)]⟩] : List (DRow Unit)) (1 / 10000) true 4)
      - totalArea (spatial_difference_with_precision (Except.ok ())
        ([⟨(), [(0, 0), (1, 1)]⟩] : List (DRow Unit))
        ([⟨(), [(1, 1)]⟩] : List (DRow Unit)) (1 / 10000) false 4)|
      ≤ (1 / 1000000) * |totalArea (spatial_difference_with_precision
        (Except.ok ()) ([⟨(), [(0, 0), (1, 1)]⟩] : List (DRow Unit))
        ([⟨(), [(1, 1)]⟩] : List (DRow Unit)) (1 / 10000) false 4)| :=
  spatial_difference_parallel_sequential_area _ _ (1 / 10000) 4 (by decide)
